import Mathlib

/-!
Shallow embedding of the shireikan command handler (files `handler.go` and
`arguments.go`): the ArgumentList utilities, the tokenizer regular
expression, prefix resolution, invocation extraction, the command registry
and the middleware pipeline, together with theorems checking the
specification's claims about them.

Strings are modelled as `String` (argument coercions, registry keys) or as
`List Char` (message text scanned character by character); Go's byte-level
operations on the involved ASCII data coincide with the character-level
model.
-/

namespace Shireikan

/-! ### ArgumentList (`arguments.go`) -/

/-- ArgumentList wraps a list of string tokens (`arguments.go` line 43). -/
abbrev ArgumentList := List String

/-- Get (`arguments.go` lines 48-54): bounds-checked indexing.  Indices
below zero or at/past the length yield the empty-string sentinel, otherwise
the element at that index; mirrors
`if i < 0 || i >= len(al) { return "" }; return al[i]`. -/
def argGet (al : ArgumentList) (i : Int) : String :=
  if i < 0 ∨ (al.length : Int) ≤ i then ""
  else al.getD i.toNat ""

/-- Splice (`arguments.go` lines 76-86) modelled at the Go-slice level.
The Go code is `append(arr[:i], arr[i+r:]...)` in the final branch:
`arr[:i]` shares `arr`'s backing array, and since the appended length
`l - r` never exceeds the capacity (at least `l`), `append` copies the
suffix into that shared backing array in place.  The first component is
the returned slice's contents; the second is what the original
length-`l` list reads afterwards (the first `l` cells of the backing
array after the in-place copy).  In the first two branches no write
happens and the original is untouched. -/
def spliceGo (arr : ArgumentList) (i r : Nat) : ArgumentList × ArgumentList :=
  let l := arr.length
  if l ≤ i then (arr, arr)
  else if l ≤ i + r then (arr.take i, arr)
  else
    let backing := arr.take i ++ arr.drop (i + r) ++ arr.drop (l - r)
    (backing.take (l - r), backing)

/-- AsBool (`arguments.go` lines 37-39) is `strconv.ParseBool`, whose
accepted token sets are quoted in the function's own comment
(lines 32-36): 1, t, T, TRUE, true, True for true and
0, f, F, FALSE, false, False for false; anything else errors. -/
def asBool (s : String) : Except Unit Bool :=
  if s = "1" ∨ s = "t" ∨ s = "T" ∨ s = "true" ∨ s = "TRUE" ∨ s = "True" then .ok true
  else if s = "0" ∨ s = "f" ∨ s = "F" ∨ s = "false" ∨ s = "FALSE" ∨ s = "False" then
    .ok false
  else .error ()

/-- Decimal digit value accumulator used by `atoi`. -/
def digitsVal (ds : List Char) : Nat :=
  ds.foldl (fun a d => a * 10 + (d.toNat - 48)) 0

/-- AsInt (`arguments.go` lines 17-19) is `strconv.Atoi`, i.e.
`ParseInt(s, 10, 0)` on a 64-bit platform: an optional sign followed by
one or more decimal digits, with the resulting value within the signed
64-bit range; empty input, any non-digit, or an out-of-range value is an
error (ErrSyntax / ErrRange). -/
def atoi (s : String) : Except Unit Int :=
  match s.toList with
  | [] => .error ()
  | c :: cs =>
    let signed : Bool × List Char :=
      if c = '-' then (true, cs) else if c = '+' then (false, cs) else (false, c :: cs)
    if signed.2.isEmpty ∨ ¬ (signed.2.all Char.isDigit = true) then .error ()
    else if signed.1 then
      if digitsVal signed.2 ≤ 2 ^ 63 then .ok (-(digitsVal signed.2 : Int)) else .error ()
    else
      if digitsVal signed.2 < 2 ^ 63 then .ok (digitsVal signed.2 : Int) else .error ()

/-! ### Tokenizer (`handler.go` lines 29-31 and 268-273) -/

/-- RE2 character class `\s`: ASCII whitespace, i.e. tab, newline, form
feed, carriage return and space. -/
def isSpaceRx (c : Char) : Bool :=
  c = ' ' || c = '\t' || c = '\n' || c = '\x0c' || c = '\r'

/-- One atom of the regex `(?:[^\s"]+|"[^"]*")+` (`argsRx`, `handler.go`
line 30) at the start of `s`: either a maximal nonempty run of characters
that are neither whitespace nor a double quote (first alternative, tried
first and matched greedily), or one double-quote-delimited run kept with
both its quotes (second alternative, which fails when no closing quote
follows).  Returns the consumed characters and the remainder, or `none`
when no atom starts here. -/
def chunkAt (s : List Char) : Option (List Char × List Char) :=
  match s with
  | [] => none
  | c :: cs =>
    if c = '"' then
      match cs.dropWhile (fun d => d != '"') with
      | _ :: rest => some ('"' :: (cs.takeWhile (fun d => d != '"') ++ ['"']), rest)
      | [] => none
    else if isSpaceRx c then none
    else some ((c :: cs).takeWhile (fun d => !isSpaceRx d && d != '"'),
               (c :: cs).dropWhile (fun d => !isSpaceRx d && d != '"'))

/-- Greedy iteration of `chunkAt`, the outer `+` of `argsRx`: the
leftmost-first match of the regex at the start of `s`, as consumed text
plus remainder.  Every atom is nonempty, so `s.length` steps of fuel
always suffice; `matchAt` instantiates the fuel that way. -/
def matchAtAux : Nat → List Char → Option (List Char × List Char)
  | 0, _ => none
  | fuel + 1, s =>
    match chunkAt s with
    | none => none
    | some (ch, rest) =>
      match matchAtAux fuel rest with
      | none => some (ch, rest)
      | some (m, rest2) => some (ch ++ m, rest2)

/-- The regex match attempt at one position. -/
def matchAt (s : List Char) : Option (List Char × List Char) :=
  matchAtAux s.length s

/-- `argsRx.FindAllString(content, -1)`: scan left to right; at each
position try a match, emit it and continue after it, otherwise advance by
one character. -/
def scanAux : Nat → List Char → List (List Char)
  | 0, _ => []
  | fuel + 1, s =>
    match s with
    | [] => []
    | c :: cs =>
      match matchAt (c :: cs) with
      | some (m, rest) => m :: scanAux fuel rest
      | none => scanAux fuel cs

/-- All matches of `argsRx` in `s`, in order (`handler.go` line 268). -/
def scanTokens (s : List Char) : List (List Char) :=
  scanAux s.length s

/-- The tokenizer of `messageHandler` (`handler.go` lines 268-273):
`argsRx.FindAllString` followed by `strings.Replace(k, "\"", "", -1)` on
every token that contains a quote — semantically, dropping every
double-quote character from every token (the `strings.Contains` test is
only an optimization). -/
def tokenize (s : List Char) : List (List Char) :=
  (scanTokens s).map (fun t => t.filter (fun c => c != '"'))

/-- Modelled from the spec's words, for comparison with `tokenize`: the
tokenizer grammar exactly as the specification states it — a token is a
maximal run of characters containing no whitespace and no double quote,
OR one double-quote-delimited run with the bounding quotes removed; a
double quote with no closing quote starts no token. -/
def specGrammarAux : Nat → List Char → List (List Char)
  | 0, _ => []
  | fuel + 1, s =>
    match s with
    | [] => []
    | c :: cs =>
      if c = '"' then
        match cs.dropWhile (fun d => d != '"') with
        | _ :: rest => (cs.takeWhile (fun d => d != '"')) :: specGrammarAux fuel rest
        | [] => specGrammarAux fuel cs
      else if isSpaceRx c then specGrammarAux fuel cs
      else ((c :: cs).takeWhile (fun d => !isSpaceRx d && d != '"')) ::
           specGrammarAux fuel ((c :: cs).dropWhile (fun d => !isSpaceRx d && d != '"'))

/-- Spec-grammar tokenizer entry point. -/
def specGrammarTokenize (s : List Char) : List (List Char) :=
  specGrammarAux s.length s

/-- The full atom sequence matched at one position: the maximal run of
adjacent atoms, returned unjoined, with the remainder. -/
def collectAux : Nat → List Char → List (List Char) × List Char
  | 0, s => ([], s)
  | fuel + 1, s =>
    match chunkAt s with
    | none => ([], s)
    | some (ch, rest) =>
      let p := collectAux fuel rest
      (ch :: p.1, p.2)

/-- Canonical-fuel atom collection. -/
def collectChunks (s : List Char) : List (List Char) × List Char :=
  collectAux s.length s

/-- The amended grammar: a token is a maximal run of one or more ADJACENT
atoms (each a run of no-whitespace no-quote characters, or one
double-quote-delimited run), with every double-quote character stripped
from the emitted token. -/
def amendedAux : Nat → List Char → List (List Char)
  | 0, _ => []
  | fuel + 1, s =>
    match s with
    | [] => []
    | c :: cs =>
      match collectChunks (c :: cs) with
      | ([], _) => amendedAux fuel cs
      | (ch :: chs, rest) =>
        ((ch :: chs).flatten.filter (fun d => d != '"')) :: amendedAux fuel rest

/-- Amended-grammar tokenizer entry point. -/
def amendedTokenize (s : List Char) : List (List Char) :=
  amendedAux s.length s

/-! ### Prefix resolution (`handler.go` lines 229-245) -/

/-- Outcome of the used-prefix computation in `messageHandler`:
the value of `usedPrefix`, whether an error was reported via `OnError`,
and whether the per-guild getter was invoked. -/
structure PfxResolution where
  usedPfx : List Char
  errored : Bool
  consulted : Bool
  deriving DecidableEq

/-- The used-prefix computation (`handler.go` lines 229-245): when the
content starts with the configured general (global) prefix, that is the
used prefix and the per-guild getter is never invoked; otherwise the
getter runs — an error from it is reported (`ErrTypGuildPrefixGetter`)
and dispatch returns; a nonempty returned guild prefix that starts the
content becomes the used prefix; in every other case the used prefix
stays empty, and `messageHandler` then returns silently with no report
(line 243).  `getter` is the result the external provider would return
for this message's guild. -/
def resolveUsedPfx (general : List Char) (getter : Except Unit (List Char))
    (content : List Char) : PfxResolution :=
  if general.isPrefixOf content then ⟨general, false, false⟩
  else
    match getter with
    | .error _ => ⟨[], true, true⟩
    | .ok gp =>
      if !gp.isEmpty && gp.isPrefixOf content then ⟨gp, false, true⟩
      else ⟨[], false, true⟩

/-! ### Invocation extraction (`handler.go` lines 275-287) -/

/-- Invoke/argument extraction from the token list (`handler.go` lines
275-287), returning the invocation name and the argument tokens.
`none` models a Go runtime panic: in space-after-prefix mode the
re-slice `args[1:]` on an empty token slice, and in attached mode the
index `args[0]` on an empty token slice or the slice expression
`args[0][len(usedPrefix):]` when the used prefix is longer than the
first token. -/
def extractInvoke (spaceAfterPfx : Bool) (usedPfx : List Char)
    (args : List (List Char)) : Option (List Char × List (List Char)) :=
  if spaceAfterPfx then
    if args.length > 1 then some (args.getD 1 [], args.drop 2)
    else if args.length = 1 then some ([], args.drop 1)
    else none
  else
    match args with
    | [] => none
    | a0 :: rest =>
      if usedPfx.length ≤ a0.length then some (a0.drop usedPfx.length, rest)
      else none

/-! ### Middleware pipeline (`handler.go` lines 326-343) -/

/-- The eight dispatch error kinds (`handler.go` lines 18-27). -/
inductive ErrorType
  | guildPfxGetter
  | getChannel
  | getGuild
  | commandNotFound
  | notExecutableInDM
  | middleware
  | commandExec
  | deleteCommandMessage
  deriving DecidableEq

/-- A middleware: its layer subscription bitmask (`GetLayer`) and its
handler, which for a given layer returns (next, error).  The command and
context arguments play no role in the control flow modelled here and are
omitted; errors are abstracted as numbers. -/
structure Middleware where
  layer : Nat
  handle : Nat → Bool × Option Nat

/-- `executeMiddlewares` (`handler.go` lines 326-343): walk the
registered middlewares in registration order; skip one whose layer mask
misses `layer`; on a handler error report `(ErrTypMiddleware, err)` via
`OnError` once and stop with false; on `next = false` stop with false
and no report; otherwise continue.  The first component is the returned
Bool, the second the list of `OnError` reports made during the walk. -/
def executeMiddlewares (mws : List Middleware) (layer : Nat) :
    Bool × List (ErrorType × Nat) :=
  match mws with
  | [] => (true, [])
  | mw :: rest =>
    if mw.layer &&& layer = 0 then executeMiddlewares rest layer
    else
      match mw.handle layer with
      | (_, some e) => (false, [(.middleware, e)])
      | (next, none) =>
        if next then executeMiddlewares rest layer else (false, [])

/-- `messageHandler` lines 305-309: `cmd.Exec(ctx)` runs exactly when
the before-command middleware layer returned true. -/
def commandExecuted (mws : List Middleware) (layerBefore : Nat) : Bool :=
  (executeMiddlewares mws layerBefore).1

/-! ### Command registry (`handler.go` lines 146-157 and 187-194) -/

/-- A command: an identity and its invocation names (`GetInvokes`). -/
structure Cmd where
  id : Nat
  invokes : List String
  deriving DecidableEq

/-- Case folding applied before insertion and lookup when
`InvokeToLower` is configured (`handler.go` lines 149-151, 188-190). -/
def foldInvoke (invokeToLower : Bool) (s : String) : String :=
  if invokeToLower then s.toLower else s

/-- First-match association-list lookup, modelling the Go map `cmdMap`
(whose keys stay unique because a duplicate panics before insertion). -/
def lookupCmd (m : List (String × Cmd)) (k : String) : Option Cmd :=
  match m with
  | [] => none
  | (k2, c) :: rest => if k2 = k then some c else lookupCmd rest k

/-- The handler registration state: the invocation map and the instance
list. -/
structure HandlerState where
  cmdMap : List (String × Cmd)
  cmdInstances : List Cmd
  deriving DecidableEq

/-- The per-invocation loop of `RegisterCommand` (`handler.go` lines
148-156): fold each name if configured, panic when it is already mapped
(`.error` carries the map as it stands at the panic), otherwise insert
and continue. -/
def registerInvokes (itl : Bool) (cmd : Cmd) :
    List (String × Cmd) → List String →
      Except (List (String × Cmd)) (List (String × Cmd))
  | m, [] => .ok m
  | m, inv :: rest =>
    if (lookupCmd m (foldInvoke itl inv)).isSome then .error m
    else registerInvokes itl cmd (m ++ [(foldInvoke itl inv, cmd)]) rest

/-- The map held by the handler after `registerInvokes`, whether or not
it panicked (a Go panic unwinds but leaves the heap mutations). -/
def regStateOf : Except (List (String × Cmd)) (List (String × Cmd)) →
    List (String × Cmd)
  | .ok m => m
  | .error m => m

/-- `RegisterCommand` (`handler.go` lines 146-157): append the command
to the instance list, then insert every invocation name; a duplicate
name panics.  `.error` carries the handler state observable after the
panic. -/
def registerCommand (itl : Bool) (st : HandlerState) (cmd : Cmd) :
    Except HandlerState HandlerState :=
  match registerInvokes itl cmd st.cmdMap cmd.invokes with
  | .error m => .error ⟨m, st.cmdInstances ++ [cmd]⟩
  | .ok m => .ok ⟨m, st.cmdInstances ++ [cmd]⟩

/-! ### Claims C6, C8, C9, C7 -/

/-- C6: Splice returns the list unchanged when start is at or beyond the
length, only the elements before start when start + count reaches or
exceeds the length, and otherwise the elements before start concatenated
with the elements from start + count onward; on [a,b,c,d,e],
Splice(1,2) = [a,d,e], Splice(4,2) = [a,b,c,d], Splice(5,1) unchanged. -/
theorem C6_splice (arr : ArgumentList) (i r : Nat) :
    (arr.length ≤ i → (spliceGo arr i r).1 = arr) ∧
    (i < arr.length → arr.length ≤ i + r → (spliceGo arr i r).1 = arr.take i) ∧
    (i + r < arr.length → (spliceGo arr i r).1 = arr.take i ++ arr.drop (i + r)) ∧
    (spliceGo ["a", "b", "c", "d", "e"] 1 2).1 = ["a", "d", "e"] ∧
    (spliceGo ["a", "b", "c", "d", "e"] 4 2).1 = ["a", "b", "c", "d"] ∧
    (spliceGo ["a", "b", "c", "d", "e"] 5 1).1 = ["a", "b", "c", "d", "e"] := by
  refine ⟨?_, ?_, ?_, by decide, by decide, by decide⟩
  · intro h
    simp [spliceGo, h]
  · intro h1 h2
    have h1' : ¬ arr.length ≤ i := by omega
    simp only [spliceGo, if_neg h1', if_pos h2]
  · intro h
    have h1 : ¬ arr.length ≤ i := by omega
    have h2 : ¬ arr.length ≤ i + r := by omega
    simp only [spliceGo, if_neg h1, if_neg h2]
    have hlen : (arr.take i ++ arr.drop (i + r)).length = arr.length - r := by
      simp
      omega
    rw [List.append_assoc, ← List.append_assoc]
    rw [← hlen, List.take_left]

/-- Witness for C6 at concrete inputs. -/
theorem C6_splice_witness :
    (spliceGo ["a", "b"] 3 1).1 = ["a", "b"] ∧
    (spliceGo ["a", "b", "c"] 1 1).1 = ["a", "c"] :=
  ⟨(C6_splice ["a", "b"] 3 1).1 (by decide),
   by
    have := (C6_splice ["a", "b", "c"] 1 1).2.2.1 (by decide)
    simpa using this⟩

/-- C8: Get never faults: for every argument list and every integer index
it returns the element at the index when the index is in bounds, and the
empty-string sentinel when the index is negative or at/past the length. -/
theorem C8_get_total (al : ArgumentList) (i : Int) :
    (∀ (n : Nat) (h : n < al.length), i = n → argGet al i = al.get ⟨n, h⟩) ∧
    (i < 0 ∨ (al.length : Int) ≤ i → argGet al i = "") := by
  constructor
  · rintro n h rfl
    have hcond : ¬ ((n : Int) < 0 ∨ (al.length : Int) ≤ (n : Int)) := by
      push_neg
      constructor
      · positivity
      · exact_mod_cast h
    simp only [argGet, if_neg hcond, Int.toNat_natCast]
    rw [List.getD_eq_getElem al "" h]
    simp [List.get_eq_getElem]
  · intro h
    simp [argGet, h]

/-- Witness for C8 at concrete inputs. -/
theorem C8_get_total_witness :
    argGet ["x", "y"] 1 = "y" ∧ argGet ["x", "y"] (-1) = "" ∧ argGet ["x", "y"] 7 = "" :=
  ⟨by
    have := (C8_get_total ["x", "y"] 1).1 1 (by decide) rfl
    simpa using this,
   (C8_get_total ["x", "y"] (-1)).2 (by decide),
   (C8_get_total ["x", "y"] 7).2 (by decide)⟩

/-- C9 is a code bug: Splice is advertised (both by the specification and
by the function's own comment, which promises a new array) as leaving the
original list unchanged, but `append(arr[:i], arr[i+r:]...)` writes
through the shared backing array: after Splice(1,2) on [a,b,c,d,e] the
original five-element list reads [a,d,e,d,e], not [a,b,c,d,e], even
though the returned slice is the expected [a,d,e]. -/
theorem C9_splice_mutates_original :
    (spliceGo ["a", "b", "c", "d", "e"] 1 2).1 = ["a", "d", "e"] ∧
    (spliceGo ["a", "b", "c", "d", "e"] 1 2).2 = ["a", "d", "e", "d", "e"] ∧
    (spliceGo ["a", "b", "c", "d", "e"] 1 2).2 ≠ ["a", "b", "c", "d", "e"] := by
  refine ⟨by decide, by decide, by decide⟩

/-- C7: AsBool accepts exactly 1, t, T, TRUE, true, True as true and
exactly 0, f, F, FALSE, false, False as false, failing on everything
else; AsInt parses standard decimal integer text (any nonempty digit
string whose value fits, in particular 42) and fails on non-conforming
text such as 4.2. -/
theorem C7_coercions :
    (∀ s : String, asBool s = .ok true ↔ s ∈ ["1", "t", "T", "TRUE", "true", "True"]) ∧
    (∀ s : String, asBool s = .ok false ↔ s ∈ ["0", "f", "F", "FALSE", "false", "False"]) ∧
    (∀ s : String, s ∉ ["1", "t", "T", "TRUE", "true", "True"] →
       s ∉ ["0", "f", "F", "FALSE", "false", "False"] → asBool s = .error ()) ∧
    (∀ ds : List Char, ds ≠ [] → ds.all Char.isDigit = true → (ds.headD 'x').isDigit →
       digitsVal ds < 2 ^ 63 → atoi (String.mk ds) = .ok (digitsVal ds)) ∧
    atoi "42" = .ok 42 ∧
    atoi "4.2" = .error () := by
  refine ⟨?_, ?_, ?_, ?_, by rfl, by rfl⟩
  · intro s
    constructor
    · intro h
      unfold asBool at h
      split_ifs at h with h1 h2 <;>
        first
          | (rcases h1 with h1 | h1 | h1 | h1 | h1 | h1 <;> subst h1 <;> simp)
          | exact absurd h (by simp)
    · intro h
      fin_cases h <;> rfl
  · intro s
    constructor
    · intro h
      unfold asBool at h
      split_ifs at h with h1 h2 <;>
        first
          | (rcases h2 with h2 | h2 | h2 | h2 | h2 | h2 <;> subst h2 <;> simp)
          | exact absurd h (by simp)
    · intro h
      fin_cases h <;> rfl
  · intro s h1 h2
    unfold asBool
    split_ifs with g1 g2
    · rcases g1 with g | g | g | g | g | g <;> subst g <;> simp at h1
    · rcases g2 with g | g | g | g | g | g <;> subst g <;> simp at h2
    · rfl
  · intro ds hne hdig hhead hlt
    match ds, hne with
    | c :: cs, _ =>
      have hc : c.isDigit := by simpa using hhead
      have hcm : ¬ c = '-' := by
        intro h
        rw [h] at hc
        simp [Char.isDigit] at hc
      have hcp : ¬ c = '+' := by
        intro h
        rw [h] at hc
        simp [Char.isDigit] at hc
      have hne1 : ¬ ((c :: cs).isEmpty = true ∨ ¬ (c :: cs).all Char.isDigit = true) := by
        simp [hdig]
      simp only [atoi, String.toList, if_neg hcm, if_neg hcp, if_neg hne1]
      rw [if_neg (by simp), if_pos hlt]

/-! ### Tokenizer lemmas and claim C1 -/

/-- Every atom consumes at least one character. -/
theorem chunkAt_rest_lt (s ch rest : List Char) (h : chunkAt s = some (ch, rest)) :
    rest.length < s.length := by
  match s with
  | [] => simp [chunkAt] at h
  | c :: cs =>
    simp only [chunkAt] at h
    split_ifs at h with hq hsp
    · cases hdw : cs.dropWhile (fun d => d != '"') with
      | nil => rw [hdw] at h; simp at h
      | cons q dtl =>
        rw [hdw] at h
        simp only [Option.some.injEq, Prod.mk.injEq] at h
        obtain ⟨h1, h2⟩ := h
        subst h2
        have hle : (cs.dropWhile (fun d => d != '"')).length ≤ cs.length :=
          (List.dropWhile_sublist _).length_le
        rw [hdw] at hle
        simp only [List.length_cons] at hle ⊢
        omega
    · simp only [Option.some.injEq, Prod.mk.injEq] at h
      obtain ⟨h1, h2⟩ := h
      have hp : (!isSpaceRx c && c != '"') = true := by
        simp only [Bool.and_eq_true, Bool.not_eq_true', bne_iff_ne]
        exact ⟨by simpa using hsp, hq⟩
      simp only [List.dropWhile_cons] at h2
      split at h2
      · have hle : (cs.dropWhile (fun d => !isSpaceRx d && d != '"')).length ≤ cs.length :=
          (List.dropWhile_sublist _).length_le
        rw [h2] at hle
        simp only [List.length_cons]
        omega
      · rename_i hcond
        exact absurd hp (by simpa using hcond)

/-- When no atom sequence is matched the remainder is the input itself. -/
theorem collectAux_fst_nil (fuel : Nat) (s : List Char)
    (h : (collectAux fuel s).1 = []) : (collectAux fuel s).2 = s := by
  cases fuel with
  | zero => rfl
  | succ fuel =>
    simp only [collectAux] at h ⊢
    cases hch : chunkAt s with
    | none => rfl
    | some p =>
      obtain ⟨ch, rest⟩ := p
      rw [hch] at h
      dsimp only at h
      simp at h

/-- The remainder after atom collection never grows. -/
theorem collectAux_snd_le (fuel : Nat) (s : List Char) :
    (collectAux fuel s).2.length ≤ s.length := by
  induction fuel generalizing s with
  | zero => simp [collectAux]
  | succ fuel ih =>
    simp only [collectAux]
    cases hch : chunkAt s with
    | none => simp
    | some p =>
      obtain ⟨ch, rest⟩ := p
      have h1 := chunkAt_rest_lt s ch rest hch
      have h2 := ih rest
      dsimp only
      omega

/-- A nonempty atom sequence consumes at least one character. -/
theorem collectAux_snd_lt (fuel : Nat) (s : List Char)
    (h : (collectAux fuel s).1 ≠ []) : (collectAux fuel s).2.length < s.length := by
  cases fuel with
  | zero => simp [collectAux] at h
  | succ fuel =>
    simp only [collectAux] at h ⊢
    cases hch : chunkAt s with
    | none =>
      rw [hch] at h
      dsimp only at h
      exact absurd rfl h
    | some p =>
      obtain ⟨ch, rest⟩ := p
      have h1 := chunkAt_rest_lt s ch rest hch
      have h2 := collectAux_snd_le fuel rest
      dsimp only
      omega

/-- The greedy regex match is the join of the collected atom sequence,
failing exactly when that sequence is empty. -/
theorem matchAtAux_eq_collectAux :
    ∀ (fuel : Nat) (s : List Char), s.length ≤ fuel →
      matchAtAux fuel s =
        (match collectAux fuel s with
         | ([], _) => none
         | (chs, rest) => some (chs.flatten, rest)) := by
  intro fuel
  induction fuel with
  | zero =>
    intro s hs
    have hnil : s = [] := List.length_eq_zero.mp (Nat.le_zero.mp hs)
    subst hnil
    rfl
  | succ fuel ih =>
    intro s hs
    simp only [matchAtAux, collectAux]
    cases hch : chunkAt s with
    | none => rfl
    | some p =>
      obtain ⟨ch, rest⟩ := p
      have hrest : rest.length < s.length := chunkAt_rest_lt s ch rest hch
      dsimp only
      rw [ih rest (by omega)]
      cases hcol : collectAux fuel rest with
      | mk chs rest2 =>
        cases chs with
        | nil =>
          have hr2 : rest2 = rest := by
            have hthis := collectAux_fst_nil fuel rest (by rw [hcol])
            rw [hcol] at hthis
            exact hthis
          subst hr2
          dsimp only
          simp
        | cons a as =>
          dsimp only
          simp

/-- The same, at the canonical fuel. -/
theorem matchAt_eq_collectChunks (s : List Char) :
    matchAt s =
      (match collectChunks s with
       | ([], _) => none
       | (chs, rest) => some (chs.flatten, rest)) :=
  matchAtAux_eq_collectAux s.length s le_rfl

/-- Scanning then stripping quotes is the amended-grammar tokenizer. -/
theorem scanAux_eq_amendedAux :
    ∀ (fuel : Nat) (s : List Char), s.length ≤ fuel →
      (scanAux fuel s).map (fun t => t.filter (fun c => c != '"')) = amendedAux fuel s := by
  intro fuel
  induction fuel with
  | zero =>
    intro s hs
    rfl
  | succ fuel ih =>
    intro s hs
    cases s with
    | nil => rfl
    | cons c cs =>
      simp only [scanAux, amendedAux]
      have hmt := matchAt_eq_collectChunks (c :: cs)
      cases hcol : collectChunks (c :: cs) with
      | mk chs rest =>
        rw [hcol] at hmt
        cases chs with
        | nil =>
          dsimp only at hmt
          rw [hmt]
          dsimp only
          simp only [List.length_cons] at hs
          exact ih cs (by omega)
        | cons a as =>
          dsimp only at hmt
          rw [hmt]
          have hlt : rest.length < (c :: cs).length := by
            have hthis := collectAux_snd_lt (c :: cs).length (c :: cs)
              (by rw [show collectAux (c :: cs).length (c :: cs) = (a :: as, rest) from hcol]; simp)
            rw [show collectAux (c :: cs).length (c :: cs) = (a :: as, rest) from hcol] at hthis
            exact hthis
          dsimp only
          simp only [List.length_cons] at hs hlt
          simp only [List.map_cons]
          rw [ih rest (by omega)]

/-- C1 counterexample: the claim says a token is a single maximal
quote-free run or a single quote-delimited run, but the regex's outer +
concatenates ADJACENT runs: on the text consisting of quote, a, space, b,
quote, c the code produces the single token a, space, b, c (quotes
stripped), while the claimed grammar produces the two tokens a-space-b
and c. -/
theorem C1_tokenizer_counterexample :
    tokenize ("\"a b\"c".toList) = ["a bc".toList] ∧
    specGrammarTokenize ("\"a b\"c".toList) = ["a b".toList, "c".toList] ∧
    tokenize ("\"a b\"c".toList) ≠ specGrammarTokenize ("\"a b\"c".toList) := by
  refine ⟨by decide, by decide, by decide⟩

/-- C1 (amended): for every message text the tokenizer splits it by the
grammar in which a token is a maximal run of one or more adjacent atoms
(a run with no whitespace and no double quote, or a double-quote-delimited
run), with every double-quote character stripped from the emitted token;
in particular the text bang-ban space quote John space Doe quote space 10
tokenizes to the three tokens bang-ban, John-space-Doe, 10. -/
theorem C1_tokenizer_amended :
    (∀ s : List Char, tokenize s = amendedTokenize s) ∧
    tokenize ("!ban \"John Doe\" 10".toList) =
      ["!ban".toList, "John Doe".toList, "10".toList] := by
  constructor
  · intro s
    exact scanAux_eq_amendedAux s.length s le_rfl
  · decide

/-! ### Claim C2: prefix resolution -/

/-- C2: if the text starts with the configured global prefix, that prefix
is the used prefix and the per-guild getter is not consulted (the global
prefix always takes priority); only otherwise is the getter invoked; and
when neither the global prefix nor a returned nonempty guild prefix
starts the text, the used prefix stays empty with no error reported, so
`messageHandler` returns silently at line 243. -/
theorem C2_pfx_resolution (general content : List Char)
    (getter : Except Unit (List Char)) :
    (general.isPrefixOf content = true →
       resolveUsedPfx general getter content = ⟨general, false, false⟩) ∧
    (general.isPrefixOf content = false →
       (resolveUsedPfx general getter content).consulted = true) ∧
    (∀ gp, general.isPrefixOf content = false → getter = .ok gp →
       (!gp.isEmpty && gp.isPrefixOf content) = false →
       resolveUsedPfx general getter content = ⟨[], false, true⟩) := by
  refine ⟨?_, ?_, ?_⟩
  · intro h
    simp only [resolveUsedPfx, h, if_true]
  · intro h
    cases getter with
    | error e =>
      simp only [resolveUsedPfx, h, Bool.false_eq_true, if_false]
    | ok gp =>
      simp only [resolveUsedPfx, h, Bool.false_eq_true, if_false]
      split <;> rfl
  · intro gp h hget hgp
    subst hget
    simp only [resolveUsedPfx, h, Bool.false_eq_true, if_false]
    rw [hgp]
    rfl

/-- Witness for C2 at concrete inputs: general prefix bang, guild prefix
question mark, message bang-x resolves via the global prefix without
consulting the getter; a message matching neither stops silently. -/
theorem C2_pfx_resolution_witness :
    resolveUsedPfx ("!".toList) (.ok ("?".toList)) ("!x".toList) =
      ⟨"!".toList, false, false⟩ ∧
    resolveUsedPfx ("!".toList) (.ok ("?".toList)) ("zzz".toList) =
      ⟨[], false, true⟩ :=
  ⟨(C2_pfx_resolution ("!".toList) ("!x".toList) (.ok ("?".toList))).1 (by decide),
   (C2_pfx_resolution ("!".toList) ("zzz".toList) (.ok ("?".toList))).2.2
     ("?".toList) (by decide) rfl (by decide)⟩

/-! ### Claim C3: middleware pipeline -/

/-- Skipping unsubscribed middlewares is filtering the list; order is
preserved. -/
theorem executeMiddlewares_filter (mws : List Middleware) (layer : Nat) :
    executeMiddlewares mws layer =
      executeMiddlewares (mws.filter (fun mw => mw.layer &&& layer != 0)) layer := by
  induction mws with
  | nil => rfl
  | cons mw rest ih =>
    by_cases h : mw.layer &&& layer = 0
    · have hp : (mw.layer &&& layer != 0) = false := by simp [h]
      simp only [executeMiddlewares, if_pos h, List.filter_cons, hp,
        Bool.false_eq_true, if_false]
      exact ih
    · have hp : (mw.layer &&& layer != 0) = true := by simp [h]
      simp only [executeMiddlewares, if_neg h, List.filter_cons, hp, if_true]
      cases hh : mw.handle layer with
      | mk nxt err =>
        cases err with
        | some e => rfl
        | none =>
          cases nxt with
          | true =>
            dsimp only
            simp only [if_true]
            exact ih
          | false => rfl

/-- A prefix of subscribed middlewares that all continue does not affect
the run of the remainder. -/
theorem executeMiddlewares_skip_continue (layer : Nat) :
    ∀ (pre tail : List Middleware),
      (∀ mw ∈ pre, mw.layer &&& layer ≠ 0 → mw.handle layer = (true, none)) →
      executeMiddlewares (pre ++ tail) layer = executeMiddlewares tail layer := by
  intro pre
  induction pre with
  | nil => intro tail _; rfl
  | cons p ps ih =>
    intro tail hpre
    have hps : ∀ mw ∈ ps, mw.layer &&& layer ≠ 0 → mw.handle layer = (true, none) :=
      fun mw hm => hpre mw (List.mem_cons_of_mem _ hm)
    by_cases h : p.layer &&& layer = 0
    · simp only [List.cons_append, executeMiddlewares, if_pos h]
      exact ih tail hps
    · have hh := hpre p (List.mem_cons_self _ _) h
      simp only [List.cons_append, executeMiddlewares, if_neg h, hh]
      exact ih tail hps

/-- When every subscribed middleware continues, the layer completes with
no report. -/
theorem executeMiddlewares_all_continue (layer : Nat) :
    ∀ (mws : List Middleware),
      (∀ mw ∈ mws, mw.layer &&& layer ≠ 0 → mw.handle layer = (true, none)) →
      executeMiddlewares mws layer = (true, []) := by
  intro mws
  have h := executeMiddlewares_skip_continue layer mws []
  intro hall
  rw [← List.append_nil mws, h hall]
  rfl

/-- C3: in a middleware layer run, middlewares are visited in
registration order and unsubscribed ones skipped (the run equals the run
of the filtered list); after any prefix of subscribed middlewares that
continue, a subscribed middleware returning an error produces exactly
one Middleware-kind report and a false result, so the command is not
executed; one returning (false, nil) produces a false result and no
report, also preventing execution; and when every subscribed middleware
continues the layer completes with true and no report, so dispatch
proceeds. -/
theorem C3_middleware_layer (mws pre rest : List Middleware) (m : Middleware)
    (layer : Nat) :
    (executeMiddlewares mws layer =
       executeMiddlewares (mws.filter (fun mw => mw.layer &&& layer != 0)) layer) ∧
    ((∀ mw ∈ pre, mw.layer &&& layer ≠ 0 → mw.handle layer = (true, none)) →
       m.layer &&& layer ≠ 0 →
       ((∀ b e, m.handle layer = (b, some e) →
           executeMiddlewares (pre ++ m :: rest) layer =
             (false, [(.middleware, e)]) ∧
           commandExecuted (pre ++ m :: rest) layer = false) ∧
        (m.handle layer = (false, none) →
           executeMiddlewares (pre ++ m :: rest) layer = (false, []) ∧
           commandExecuted (pre ++ m :: rest) layer = false))) ∧
    ((∀ mw ∈ mws, mw.layer &&& layer ≠ 0 → mw.handle layer = (true, none)) →
       executeMiddlewares mws layer = (true, []) ∧
       commandExecuted mws layer = true) := by
  refine ⟨executeMiddlewares_filter mws layer, ?_, ?_⟩
  · intro hpre hsub
    have hskip := executeMiddlewares_skip_continue layer pre (m :: rest) hpre
    constructor
    · intro b e hh
      have hrun : executeMiddlewares (pre ++ m :: rest) layer =
          (false, [(.middleware, e)]) := by
        rw [hskip]
        simp only [executeMiddlewares, if_neg hsub, hh]
      exact ⟨hrun, by simp [commandExecuted, hrun]⟩
    · intro hh
      have hrun : executeMiddlewares (pre ++ m :: rest) layer = (false, []) := by
        rw [hskip]
        simp only [executeMiddlewares, if_neg hsub, hh]
        rfl
      exact ⟨hrun, by simp [commandExecuted, hrun]⟩
  · intro hall
    have hrun := executeMiddlewares_all_continue layer mws hall
    exact ⟨hrun, by simp [commandExecuted, hrun]⟩

/-- Witness for C3: with layer mask 1, a continuing subscribed
middleware, an unsubscribed middleware (mask 2) whose handler would
deny, and a subscribed middleware that errors with 9, the layer run
reports exactly the one Middleware-kind error 9 and returns false. -/
theorem C3_middleware_layer_witness :
    executeMiddlewares
      [⟨1, fun _ => (true, none)⟩, ⟨2, fun _ => (false, some 7)⟩,
       ⟨1, fun _ => (true, some 9)⟩] 1 =
      (false, [(.middleware, 9)]) := by
  have h := (C3_middleware_layer []
    [⟨1, fun _ => (true, none)⟩, ⟨2, fun _ => (false, some 7)⟩] []
    ⟨1, fun _ => (true, some 9)⟩ 1).2.1
  have hpre : ∀ mw ∈ ([⟨1, fun _ => (true, none)⟩,
      ⟨2, fun _ => (false, some 7)⟩] : List Middleware),
      mw.layer &&& 1 ≠ 0 → mw.handle 1 = (true, none) := by
    intro mw hm hsub
    rcases List.mem_cons.mp hm with rfl | hm2
    · rfl
    · rcases List.mem_cons.mp hm2 with rfl | hm3
      · exact absurd rfl hsub
      · simp at hm3
  exact ((h hpre (by decide)).1 true 9 rfl).1

/-! ### Claims C4 and C10: command registry -/

/-- Lookup through an appended map searches the left part first. -/
theorem lookupCmd_append (m1 m2 : List (String × Cmd)) (k : String) :
    lookupCmd (m1 ++ m2) k =
      (match lookupCmd m1 k with
       | some c => some c
       | none => lookupCmd m2 k) := by
  induction m1 with
  | nil => rfl
  | cons p m1 ih =>
    obtain ⟨k2, c⟩ := p
    by_cases h : k2 = k
    · simp only [List.cons_append, lookupCmd, if_pos h]
    · simp only [List.cons_append, lookupCmd, if_neg h]
      exact ih

/-- Whatever `registerInvokes` does, an existing mapping survives: only
fresh keys are appended and a duplicate panics before writing. -/
theorem registerInvokes_preserves (itl : Bool) (cmd : Cmd) (k : String) (c0 : Cmd) :
    ∀ (invs : List String) (m : List (String × Cmd)), lookupCmd m k = some c0 →
      lookupCmd (regStateOf (registerInvokes itl cmd m invs)) k = some c0 := by
  intro invs
  induction invs with
  | nil => intro m hm; exact hm
  | cons inv rest ih =>
    intro m hm
    simp only [registerInvokes]
    by_cases h : (lookupCmd m (foldInvoke itl inv)).isSome
    · rw [if_pos h]
      exact hm
    · rw [if_neg h]
      apply ih
      rw [lookupCmd_append, hm]

/-- If some invocation in the list is already mapped, `registerInvokes`
panics. -/
theorem registerInvokes_errors (itl : Bool) (cmd : Cmd) (inv : String) :
    ∀ (invs : List String) (m : List (String × Cmd)), inv ∈ invs →
      (lookupCmd m (foldInvoke itl inv)).isSome = true →
      ∃ m2, registerInvokes itl cmd m invs = .error m2 := by
  intro invs
  induction invs with
  | nil => intro m h; simp at h
  | cons a rest ih =>
    intro m hmem hsome
    simp only [registerInvokes]
    by_cases h : (lookupCmd m (foldInvoke itl a)).isSome
    · rw [if_pos h]
      exact ⟨m, rfl⟩
    · rw [if_neg h]
      rcases List.mem_cons.mp hmem with rfl | hmem2
      · exact absurd hsome (by simpa using h)
      · apply ih (m ++ [(foldInvoke itl a, cmd)]) hmem2
        rw [lookupCmd_append]
        cases hl : lookupCmd m (foldInvoke itl inv) with
        | none =>
          rw [hl] at hsome
          simp at hsome
        | some c => rfl

/-- C4: registering a command one of whose invocation names (after the
configured case folding) is already mapped makes the registration call
panic, and the previously registered command stays mapped to that name
in the state observable after the panic — no silent overwrite. -/
theorem C4_register_duplicate (itl : Bool) (st : HandlerState) (cmd : Cmd)
    (inv : String) (c0 : Cmd)
    (hmem : inv ∈ cmd.invokes)
    (hdup : lookupCmd st.cmdMap (foldInvoke itl inv) = some c0) :
    ∃ st2, registerCommand itl st cmd = .error st2 ∧
      lookupCmd st2.cmdMap (foldInvoke itl inv) = some c0 := by
  obtain ⟨m2, hm2⟩ :=
    registerInvokes_errors itl cmd inv cmd.invokes st.cmdMap hmem (by rw [hdup]; rfl)
  refine ⟨⟨m2, st.cmdInstances ++ [cmd]⟩, ?_, ?_⟩
  · unfold registerCommand
    rw [hm2]
  · have hp := registerInvokes_preserves itl cmd (foldInvoke itl inv) c0
      cmd.invokes st.cmdMap hdup
    rw [hm2] at hp
    exact hp

/-- Witness for C4: a second command claiming the already-registered
invocation ping panics, and ping still maps to the first command. -/
theorem C4_register_duplicate_witness :
    ∃ st2, registerCommand false
        ⟨[("ping", ⟨1, ["ping"]⟩)], [⟨1, ["ping"]⟩]⟩ ⟨2, ["ping"]⟩ = .error st2 ∧
      lookupCmd st2.cmdMap "ping" = some ⟨1, ["ping"]⟩ :=
  C4_register_duplicate false ⟨[("ping", ⟨1, ["ping"]⟩)], [⟨1, ["ping"]⟩]⟩
    ⟨2, ["ping"]⟩ "ping" ⟨1, ["ping"]⟩ (by decide) (by decide)

/-- Registration scans the invocation list left to right, appending fresh
keys, and panics at the first duplicate with exactly the earlier names
inserted. -/
theorem registerInvokes_partial (itl : Bool) (cmd : Cmd) (d : String)
    (rest : List String) :
    ∀ (pre : List String) (m : List (String × Cmd)),
      (∀ a ∈ pre, lookupCmd m (foldInvoke itl a) = none) →
      (pre.map (foldInvoke itl)).Nodup →
      (lookupCmd (m ++ pre.map (fun a => (foldInvoke itl a, cmd)))
        (foldInvoke itl d)).isSome = true →
      registerInvokes itl cmd m (pre ++ d :: rest) =
        .error (m ++ pre.map (fun a => (foldInvoke itl a, cmd))) := by
  intro pre
  induction pre with
  | nil =>
    intro m hfresh hnodup hdup
    simp only [List.map_nil, List.append_nil] at hdup ⊢
    simp only [List.nil_append, registerInvokes]
    rw [if_pos hdup]
  | cons a pre ih =>
    intro m hfresh hnodup hdup
    rw [List.map_cons, List.nodup_cons] at hnodup
    obtain ⟨hnotin, hnodup2⟩ := hnodup
    have hfa : lookupCmd m (foldInvoke itl a) = none :=
      hfresh a (List.mem_cons_self _ _)
    simp only [List.cons_append, registerInvokes]
    rw [if_neg (by rw [hfa]; simp)]
    have hfresh2 : ∀ b ∈ pre,
        lookupCmd (m ++ [(foldInvoke itl a, cmd)]) (foldInvoke itl b) = none := by
      intro b hb
      rw [lookupCmd_append, hfresh b (List.mem_cons_of_mem _ hb)]
      have hne : ¬ foldInvoke itl a = foldInvoke itl b := by
        intro heq
        exact hnotin (heq ▸ List.mem_map_of_mem (foldInvoke itl) hb)
      simp only [lookupCmd, if_neg hne]
    have hdup2 : (lookupCmd ((m ++ [(foldInvoke itl a, cmd)]) ++
        pre.map (fun b => (foldInvoke itl b, cmd))) (foldInvoke itl d)).isSome = true := by
      rw [List.append_assoc, List.singleton_append]
      rw [List.map_cons] at hdup
      exact hdup
    have hthis := ih (m ++ [(foldInvoke itl a, cmd)]) hfresh2 hnodup2 hdup2
    rw [List.append_assoc] at hthis
    rw [List.map_cons]
    exact hthis

/-- C10: registration is not atomic on failure: when it panics at a
duplicate invocation name, the command was already appended to the
instance list and every invocation name listed before the duplicate was
already inserted into the map, so the observable handler state after
the halt differs from the state before the call. -/
theorem C10_register_not_atomic (itl : Bool) (st : HandlerState) (cmd : Cmd)
    (pre rest : List String) (d : String)
    (hsplit : cmd.invokes = pre ++ d :: rest)
    (hfresh : ∀ a ∈ pre, lookupCmd st.cmdMap (foldInvoke itl a) = none)
    (hnodup : (pre.map (foldInvoke itl)).Nodup)
    (hdup : (lookupCmd (st.cmdMap ++ pre.map (fun a => (foldInvoke itl a, cmd)))
              (foldInvoke itl d)).isSome = true) :
    registerCommand itl st cmd =
      .error ⟨st.cmdMap ++ pre.map (fun a => (foldInvoke itl a, cmd)),
              st.cmdInstances ++ [cmd]⟩ ∧
    st.cmdInstances ++ [cmd] ≠ st.cmdInstances := by
  constructor
  · unfold registerCommand
    rw [hsplit, registerInvokes_partial itl cmd d rest pre st.cmdMap hfresh hnodup hdup]
  · intro h
    have hlen := congrArg List.length h
    simp at hlen

/-- Witness for C10: registering a command with invokes pong, ping into
a registry already holding ping panics, but afterwards the command is in
the instance list and pong is in the map. -/
theorem C10_register_not_atomic_witness :
    registerCommand false ⟨[("ping", ⟨1, ["ping"]⟩)], [⟨1, ["ping"]⟩]⟩
        ⟨2, ["pong", "ping"]⟩ =
      .error ⟨[("ping", ⟨1, ["ping"]⟩), ("pong", ⟨2, ["pong", "ping"]⟩)],
              [⟨1, ["ping"]⟩, ⟨2, ["pong", "ping"]⟩]⟩ :=
  (C10_register_not_atomic false ⟨[("ping", ⟨1, ["ping"]⟩)], [⟨1, ["ping"]⟩]⟩
    ⟨2, ["pong", "ping"]⟩ ["pong"] [] "ping" rfl (by decide) (by decide) (by decide)).1

/-! ### Claim C5: invocation extraction -/

/-- C5 counterexample: the extraction code does not tolerate every token
list a dispatched message can produce.  The two-character content
quote-space starts with the global prefix quote (so it is dispatched)
yet tokenizes to the empty list, on which both modes fault (the claimed
empty invocation name is never produced); and in attached mode a content
starting with the two-character prefix quote-x yields a first token
shorter than the prefix, so the slice expression faults as well. -/
theorem C5_extraction_counterexample :
    resolveUsedPfx ("\"".toList) (.ok []) ("\" ".toList) =
      ⟨"\"".toList, false, false⟩ ∧
    ("\" ".toList).length = 2 ∧
    tokenize ("\" ".toList) = [] ∧
    extractInvoke true ("\"".toList) (tokenize ("\" ".toList)) = none ∧
    extractInvoke false ("\"".toList) (tokenize ("\" ".toList)) = none ∧
    resolveUsedPfx ("\"x".toList) (.ok []) ("\"x y".toList) =
      ⟨"\"x".toList, false, false⟩ ∧
    tokenize ("\"x y".toList) = ["x".toList, "y".toList] ∧
    extractInvoke false ("\"x".toList) (tokenize ("\"x y".toList)) = none := by
  refine ⟨by decide, by decide, by decide, by decide, by decide, by decide,
    by decide, by decide⟩

/-- C5 (amended): on every NONEMPTY token list, in space-after-prefix
mode the invocation name is the second token if present and the empty
string otherwise, with arguments all tokens after the second (or after
the first when no second exists); in attached mode, whenever the used
prefix's length does not exceed the first token's length, the invocation
name is the first token with the prefix's length stripped and the
arguments are the tokens from index 1; both modes tolerate zero
remaining argument tokens and an empty invocation name.  On the empty
token list, and in attached mode when the prefix is longer than the
first token, extraction faults. -/
theorem C5_extraction_amended (pfx : List Char) (args : List (List Char))
    (a0 : List Char) (rest : List (List Char)) :
    (args ≠ [] →
       extractInvoke true pfx args =
         some (args.getD 1 [],
               if 1 < args.length then args.drop 2 else args.drop 1)) ∧
    (args = a0 :: rest → pfx.length ≤ a0.length →
       extractInvoke false pfx args = some (a0.drop pfx.length, rest)) := by
  constructor
  · intro hne
    match args, hne with
    | [a], _ => simp [extractInvoke]
    | a :: b :: args2, _ =>
      simp only [extractInvoke, if_true]
      have h1 : (a :: b :: args2).length > 1 := by simp
      rw [if_pos h1, if_pos (by simp)]
  · rintro rfl hle
    simp [extractInvoke, hle]

/-- Witness for C5 at concrete inputs: the space-after-prefix tokens of
bang, ban, 10 give invocation ban with argument 10; a lone prefix token
gives the empty invocation and no arguments; attached-mode tokens of
bang-ban, 10 with prefix bang give invocation ban with argument 10. -/
theorem C5_extraction_amended_witness :
    extractInvoke true ("!".toList) ["!".toList, "ban".toList, "10".toList] =
      some ("ban".toList, ["10".toList]) ∧
    extractInvoke true ("!".toList) ["!".toList] = some ([], []) ∧
    extractInvoke false ("!".toList) ["!ban".toList, "10".toList] =
      some ("ban".toList, ["10".toList]) := by
  refine ⟨?_, ?_, ?_⟩
  · exact (C5_extraction_amended ("!".toList)
      ["!".toList, "ban".toList, "10".toList] [] []).1 (by decide)
  · exact (C5_extraction_amended ("!".toList) ["!".toList] [] []).1 (by decide)
  · exact (C5_extraction_amended ("!".toList) ["!ban".toList, "10".toList]
      ("!ban".toList) ["10".toList]).2 rfl (by decide)

/-- Witness for C7 at concrete inputs: TRUE parses to true, yes fails,
and the digit string 7 parses to the integer 7. -/
theorem C7_coercions_witness :
    asBool "TRUE" = .ok true ∧ asBool "yes" = .error () ∧ atoi "7" = .ok 7 :=
  ⟨(C7_coercions.1 "TRUE").mpr (by decide),
   C7_coercions.2.2.1 "yes" (by decide) (by decide),
   C7_coercions.2.2.2.1 ['7'] (by decide) (by decide) (by decide) (by decide)⟩
